import Mathlib

/-!
Verification of the optimization-tree frontend (`opt_com`): the streaming
event reducer (`app/page.tsx`, `handleOptimizeEvent`), the tree layout
engine (`app/OptimizationTree.tsx`), and the text-to-speech route guards
(`app/api/tts/route.ts`), embedded shallowly as pure Lean functions.
-/

namespace OptCom

/-- `ProtocolNode` from `lib/types` as used by the source: an evaluated
candidate with an opaque id, an optional parent id (the no-parent sentinel
`null` is `none`), a search depth, a numeric cost and a textual payload.
JS numbers carrying the cost are modelled as rationals. -/
structure ProtocolNode where
  id : String
  parent_id : Option String
  round_index : Nat
  communication_tokens : ℚ
  rule : String
deriving DecidableEq, Repr

/-- The optimization stream events of §6 / `OptimizeStreamEvent`, exactly the
shapes consumed by `handleOptimizeEvent` in `app/page.tsx`. -/
inductive OptimizeStreamEvent where
  | base_evaluated (node : ProtocolNode) (best_path : List String)
  | candidate_evaluated (node : ProtocolNode) (round_index : Nat)
  | best_updated (node : ProtocolNode) (best_path : List String)
  | done (tree : List ProtocolNode) (best_path : List String) (best_node : ProtocolNode)
  | error (message : String)
deriving DecidableEq, Repr

/-- The React state touched by `handleOptimizeEvent` in `app/page.tsx`
(lines 66-71 and the `protocol` field): accumulated nodes, best path,
best node, current round, last error, active protocol text. -/
structure OptState where
  optNodes : List ProtocolNode
  optBestPath : List String
  optBestNode : Option ProtocolNode
  optCurrentRound : Nat
  optError : Option String
  protocol : String
deriving DecidableEq, Repr

/-- `handleOptimizeEvent` (`app/page.tsx` lines 136-162): each event kind
updates exactly the state slices the corresponding `set*` calls update. -/
def handleOptimizeEvent (s : OptState) : OptimizeStreamEvent → OptState
  | .base_evaluated node best_path =>
    { s with optNodes := [node], optBestPath := best_path,
             optBestNode := some node, optCurrentRound := 0 }
  | .candidate_evaluated node round_index =>
    { s with optNodes := s.optNodes ++ [node], optCurrentRound := round_index }
  | .best_updated node best_path =>
    { s with optBestPath := best_path, optBestNode := some node }
  | .done tree best_path best_node =>
    { s with optNodes := tree, optBestPath := best_path,
             optBestNode := some best_node, protocol := best_node.rule }
  | .error message =>
    { s with optError := some message }

/-! ## Text-to-speech route (`app/api/tts/route.ts`) -/

/-- The request body shape `TtsRequest`; a field the JSON lacks is `none`. -/
structure TtsRequest where
  text : Option String
  voice_id : Option String
  model_id : Option String
  output_format : Option String
deriving DecidableEq, Repr

/-- Outcome of the `POST` handler before/at the upstream call: either an
early JSON error response (status, detail) or an upstream request carrying
the trimmed text, resolved voice, model and output format. -/
inductive TtsOutcome where
  | earlyResponse (status : Nat) (detail : String)
  | upstreamRequest (text voiceId modelId outputFormat : String)
deriving DecidableEq, Repr

/-- Whether the outcome reaches the upstream provider. -/
def TtsOutcome.isUpstream : TtsOutcome → Bool
  | .earlyResponse _ _ => false
  | .upstreamRequest _ _ _ _ => true

/-- JS falsiness of an environment string: unset or empty. -/
def envFalsy : Option String → Bool
  | none => true
  | some s => s = ""

/-- `POST` of `app/api/tts/route.ts` up to the upstream `fetch` (lines
12-47): the credential check, the JSON-parse check (an unparsable body is
`none`), the non-empty-text check, and the default resolution of voice,
model and output format. -/
def ttsPost (apiKey : Option String) (envVoice envModel envFormat : Option String)
    (body : Option TtsRequest) : TtsOutcome :=
  if envFalsy apiKey then
    .earlyResponse 500 "ELEVENLABS_API_KEY is not set"
  else
    match body with
    | none => .earlyResponse 400 "Invalid JSON payload"
    | some b =>
      let text := ((b.text.map (fun s => s.trim)).getD "")
      if text = "" then
        .earlyResponse 400 "text is required"
      else
        .upstreamRequest text
          ((b.voice_id.getD (envVoice.getD "onwK4e9ZLuTAKqWW03F9")))
          ((b.model_id.getD (envModel.getD "eleven_multilingual_v2")))
          ((b.output_format.getD (envFormat.getD "mp3_44100_128")))

/-! ## Tree layout engine (`app/OptimizationTree.tsx`)

The engine is the `useMemo` bodies at lines 37-154: build an id-keyed map,
find the root, attach children by `parent_id`, group by `round_index`,
stably sort each round, assign and then center x positions, compute the
canvas, and collect rendered nodes and edges by depth-first traversal from
the root. The best-path list is consumed only through the membership test
`bestPathSet.has`, modelled as a function `mem : String → Bool`. -/

def NODE_WIDTH : ℚ := 140

def NODE_HEIGHT : ℚ := 80

def LEVEL_HEIGHT : ℚ := 160

def NODE_SPACING : ℚ := 20

/-- JS `Map.set` on an insertion-ordered association list: replace the
value in place when the key exists, else append. -/
def mapInsert (m : List (String × ProtocolNode)) (k : String) (v : ProtocolNode) :
    List (String × ProtocolNode) :=
  if m.any (fun p => decide (p.1 = k)) then
    m.map (fun p => if p.1 = k then (k, v) else p)
  else m ++ [(k, v)]

/-- The `nodeMap` built at lines 42-47: one `Map.set` per input node. -/
def buildMap (nodes : List ProtocolNode) : List (String × ProtocolNode) :=
  nodes.foldl (fun m n => mapInsert m n.id n) []

/-- The values of `nodeMap` in insertion order (the order every
`nodeMap.forEach` uses). -/
def valsOf (nodes : List ProtocolNode) : List ProtocolNode :=
  (buildMap nodes).map Prod.snd

/-- Root detection (lines 50-60): the `forEach` overwrites `root` at every
null-parent node, so the last such map value wins. -/
def findRoot (vals : List ProtocolNode) : Option ProtocolNode :=
  vals.foldl (fun acc n => if n.parent_id = none then some n else acc) none

/-- Child attachment (lines 51-60): a node is pushed onto the children of
the unique map entry named by its `parent_id`; a node whose parent id is
absent from the map is attached nowhere. Children keep map order. -/
def childrenOf (vals : List ProtocolNode) (p : ProtocolNode) : List ProtocolNode :=
  vals.filter (fun c => decide (c.parent_id = some p.id))

/-- One entry of the `edges` memo (lines 122-138). -/
structure LEdge where
  fromNode : ProtocolNode
  toNode : ProtocolNode
  isBestPath : Bool
deriving DecidableEq, Repr

/-- The recursive `traverse` of the `edges` memo (lines 125-131), with an
explicit fuel. The source recursion carries no fuel; since map keys are
unique, every node has at most one incoming child-edge, so the subgraph
reachable from the root is a tree of depth at most `vals.length` and fuel
`vals.length + 1` reproduces the source exactly. -/
def traverseEdges (vals : List ProtocolNode) (mem : String → Bool) :
    Nat → ProtocolNode → List LEdge
  | 0, _ => []
  | fuel+1, n =>
    ((childrenOf vals n).map (fun c =>
      ⟨n, c, mem n.id && mem c.id⟩ :: traverseEdges vals mem fuel c)).flatten

/-- The recursive `traverse` of the `allNodes` memo (lines 144-151):
depth-first preorder collection of the rendered nodes, same fuel reading
as `traverseEdges`. -/
def traverseAll (vals : List ProtocolNode) : Nat → ProtocolNode → List ProtocolNode
  | 0, _ => []
  | fuel+1, n => n :: ((childrenOf vals n).map (traverseAll vals fuel)).flatten

/-- Best-path sort rank used by the comparator: 0 when the id is in the
best-path set, else 1 (lines 87-88). -/
def bestRank (mem : String → Bool) (n : ProtocolNode) : Nat :=
  if mem n.id then 0 else 1

/-- The strict part of the sort comparator at lines 86-91: a sorts before b
when its rank is smaller, or ranks tie and its token count is smaller. -/
def nodeLt (mem : String → Bool) (a b : ProtocolNode) : Bool :=
  if bestRank mem a < bestRank mem b then true
  else if bestRank mem b < bestRank mem a then false
  else decide (a.communication_tokens < b.communication_tokens)

/-- Stable insertion: place `x` before the first element it strictly
precedes, hence after every element comparing equal to it. -/
def insSorted (mem : String → Bool) (x : ProtocolNode) :
    List ProtocolNode → List ProtocolNode
  | [] => [x]
  | y :: ys => if nodeLt mem x y then x :: y :: ys else y :: insSorted mem x ys

/-- `roundNodes.sort(comparator)` (line 86). ES2019 `Array.sort` is stable,
so its result is the unique permutation that is sorted under the comparator
and keeps the original order inside every tie class; left-to-right stable
insertion produces exactly that list. -/
def sortRound (mem : String → Bool) (g : List ProtocolNode) : List ProtocolNode :=
  g.foldl (fun acc x => insSorted mem x acc) []

/-- The keys of `roundGroups` in first-insertion order (lines 73-80). -/
def keysInOrder (vals : List ProtocolNode) : List Nat :=
  vals.foldl (fun ks n => if n.round_index ∈ ks then ks else ks ++ [n.round_index]) []

/-- The `roundGroups` entry for round `r`: all map values of that round in
map order (lines 73-80). -/
def roundGroup (vals : List ProtocolNode) (r : Nat) : List ProtocolNode :=
  vals.filter (fun n => decide (n.round_index = r))

/-- JS `Math.max` on two numbers, written as an explicit comparison so
that concrete layouts evaluate by kernel reduction. -/
def qmax (a b : ℚ) : ℚ := if a ≤ b then b else a

/-- `totalWidth` of a row of `k` nodes (line 93). -/
def rowWidth (k : Nat) : ℚ := (k : ℚ) * NODE_WIDTH + ((k : ℚ) - 1) * NODE_SPACING

/-- `maxWidth` accumulated over the rounds (lines 83-94). -/
def maxRowWidth (vals : List ProtocolNode) : ℚ :=
  (keysInOrder vals).foldl (fun m r => qmax m (rowWidth (roundGroup vals r).length)) 0

/-- First positioning pass (lines 96-99): the node at index `i` of the
sorted row gets `x = i*(NODE_WIDTH+NODE_SPACING) + NODE_WIDTH/2` and
`y = r*LEVEL_HEIGHT + NODE_HEIGHT/2 + 40`. -/
def assignRow (r : Nat) : Nat → List ProtocolNode → List (ProtocolNode × ℚ × ℚ)
  | _, [] => []
  | i, n :: rest =>
    (n, (i : ℚ) * (NODE_WIDTH + NODE_SPACING) + NODE_WIDTH / 2,
      (r : ℚ) * LEVEL_HEIGHT + NODE_HEIGHT / 2 + 40) :: assignRow r (i+1) rest

/-- Centering pass (lines 102-109): add the round's offset to every x. -/
def centerRow (off : ℚ) (row : List (ProtocolNode × ℚ × ℚ)) :
    List (ProtocolNode × ℚ × ℚ) :=
  row.map (fun e => (e.1, e.2.1 + off, e.2.2))

/-- The positioned row of round `r`: sorted, indexed, then centered by
`(maxWidth - roundWidth)/2`. -/
def layoutRound (vals : List ProtocolNode) (mem : String → Bool) (r : Nat) :
    List (ProtocolNode × ℚ × ℚ) :=
  centerRow ((maxRowWidth vals - rowWidth (roundGroup vals r).length) / 2)
    (assignRow r 0 (sortRound mem (roundGroup vals r)))

/-- Everything the component derives from `(nodes, bestPath)`: whether a
tree was found, the positioned rows per round key, the rendered node list,
the edge list, and the canvas size. -/
structure LayoutOutput where
  found : Bool
  rows : List (Nat × List (ProtocolNode × ℚ × ℚ))
  renderedNodes : List ProtocolNode
  edges : List LEdge
  width : ℚ
  height : ℚ
deriving DecidableEq, Repr

/-- The early-return layout for empty input or missing root (lines 38-40
and 62-64): default 800x600 canvas, nothing rendered. -/
def emptyLayout : LayoutOutput := ⟨false, [], [], [], 800, 600⟩

/-- The whole layout engine over an abstract best-path membership test. -/
def layoutEngineCore (nodes : List ProtocolNode) (mem : String → Bool) : LayoutOutput :=
  if nodes = [] then emptyLayout
  else
    let vals := valsOf nodes
    match findRoot vals with
    | none => emptyLayout
    | some root =>
      { found := true
        rows := (keysInOrder vals).map (fun r => (r, layoutRound vals mem r))
        renderedNodes := traverseAll vals (vals.length + 1) root
        edges := traverseEdges vals mem (vals.length + 1) root
        width := qmax (maxRowWidth vals + 80) 800
        height := ((((keysInOrder vals).foldl max 0 : Nat) : ℚ) + 1) * LEVEL_HEIGHT + 100 }

/-- The layout engine as the component calls it: `bestPathSet = new
Set(bestPath)` consumed only through `has`, i.e. list membership. -/
def layoutEngine (nodes : List ProtocolNode) (bp : List String) : LayoutOutput :=
  layoutEngineCore nodes (fun s => bp.contains s)

/-! ## Specification-side orderings and well-formedness helpers

These do not come from the source; they state the two-key order of spec
§4.3 step 5 and the parent-chain conditions the claims quantify over. -/

/-- The two-key sort key of spec §4.3 step 5. -/
def sortKey (mem : String → Bool) (n : ProtocolNode) : Nat × ℚ :=
  (bestRank mem n, n.communication_tokens)

/-- Strict lexicographic order on the two-key sort key. -/
def keyLt (mem : String → Bool) (a b : ProtocolNode) : Prop :=
  bestRank mem a < bestRank mem b ∨
    (bestRank mem a = bestRank mem b ∧ a.communication_tokens < b.communication_tokens)

/-- Reflexive lexicographic order on the two-key sort key. -/
def keyLe (mem : String → Bool) (a b : ProtocolNode) : Prop :=
  bestRank mem a < bestRank mem b ∨
    (bestRank mem a = bestRank mem b ∧ a.communication_tokens ≤ b.communication_tokens)

/-- The elements of a row that carry one fixed sort key, in row order; used
to state stability (ties keep original order). -/
def keyFilter (mem : String → Bool) (K : Nat × ℚ) (l : List ProtocolNode) :
    List ProtocolNode :=
  l.filter (fun n => decide (sortKey mem n = K))

/-- Lookup of a parent id among the map values (unique-keyed). -/
def parentLookup (vals : List ProtocolNode) (p : String) : Option ProtocolNode :=
  vals.find? (fun m => decide (m.id = p))

/-- The parent record of a node, when its `parent_id` resolves. -/
def parentOf (vals : List ProtocolNode) (n : ProtocolNode) : Option ProtocolNode :=
  match n.parent_id with
  | none => none
  | some p => parentLookup vals p

/-- Length of the parent chain from `n` to a null-parent node, when it
terminates within the given fuel; used to state acyclicity. -/
def depthTo (vals : List ProtocolNode) : Nat → ProtocolNode → Option Nat
  | 0, n =>
    match n.parent_id with
    | none => some 0
    | some _ => none
  | fuel+1, n =>
    match n.parent_id with
    | none => some 0
    | some p =>
      match parentLookup vals p with
      | none => none
      | some q => (depthTo vals fuel q).map (· + 1)

/-- The `j`-th ancestor of a node along parent links. -/
def ancAt (vals : List ProtocolNode) : Nat → ProtocolNode → Option ProtocolNode
  | 0, n => some n
  | j+1, n =>
    match parentOf vals n with
    | none => none
    | some q => ancAt vals j q

/-! ## Concrete inputs used by witnesses and counterexamples -/

/-- The root/base node of the spec §8 scenario. -/
def exN0 : ProtocolNode := ⟨"n0", none, 0, 120, "A"⟩

/-- The round-1 candidate of the spec §8 scenario. -/
def exN1 : ProtocolNode := ⟨"n1", some "n0", 1, 80, "B"⟩

/-- Root of the parent-cycle input. -/
def cycR : ProtocolNode := ⟨"r", none, 0, 0, ""⟩

/-- Cycle member: its parent is `cycB`. -/
def cycA : ProtocolNode := ⟨"a", some "b", 1, 1, ""⟩

/-- Cycle member: its parent is `cycA`. -/
def cycB : ProtocolNode := ⟨"b", some "a", 1, 2, ""⟩

/-- Root of the orphan example. -/
def orR : ProtocolNode := ⟨"r", none, 0, 0, ""⟩

/-- Rendered round-1 child of `orR` with 10 tokens. -/
def orA : ProtocolNode := ⟨"a", some "r", 1, 10, ""⟩

/-- Rendered round-1 child of `orR` with 20 tokens. -/
def orB : ProtocolNode := ⟨"b", some "r", 1, 20, ""⟩

/-- Rendered round-1 child of `orR` with 30 tokens. -/
def orC : ProtocolNode := ⟨"c", some "r", 1, 30, ""⟩

/-- Rendered round-1 child of `orR` with 40 tokens. -/
def orD : ProtocolNode := ⟨"d", some "r", 1, 40, ""⟩

/-- Round-1 orphan: its parent id `zzz` resolves to nothing. -/
def orOrphan : ProtocolNode := ⟨"o", some "zzz", 1, 5, ""⟩

/-! ## Claims about the reducer -/

/-- C4: applying a `candidate_evaluated` event appends the node (the set
grows by exactly one and the previous nodes are an unchanged prefix), sets
the current round to the event's `round_index`, and leaves the best path
and best node untouched (`app/page.tsx` lines 144-147). -/
theorem candidate_evaluated_appends (s : OptState) (node : ProtocolNode) (round_index : Nat) :
    (handleOptimizeEvent s (.candidate_evaluated node round_index)).optNodes
        = s.optNodes ++ [node]
    ∧ (handleOptimizeEvent s (.candidate_evaluated node round_index)).optNodes.length
        = s.optNodes.length + 1
    ∧ (handleOptimizeEvent s (.candidate_evaluated node round_index)).optNodes.take
        s.optNodes.length = s.optNodes
    ∧ (handleOptimizeEvent s (.candidate_evaluated node round_index)).optCurrentRound
        = round_index
    ∧ (handleOptimizeEvent s (.candidate_evaluated node round_index)).optBestPath
        = s.optBestPath
    ∧ (handleOptimizeEvent s (.candidate_evaluated node round_index)).optBestNode
        = s.optBestNode := by
  refine ⟨rfl, by simp [handleOptimizeEvent], ?_, rfl, rfl, rfl⟩
  simp [handleOptimizeEvent, List.take_append]

/-- C5: applying a `done` event replaces the accumulated node set with the
event's tree, replaces the best path and best node, and adopts the best
node's rule as the active protocol text (`app/page.tsx` lines 152-157). -/
theorem done_replaces_state (s : OptState) (tree : List ProtocolNode)
    (best_path : List String) (best_node : ProtocolNode) :
    (handleOptimizeEvent s (.done tree best_path best_node)).optNodes = tree
    ∧ (handleOptimizeEvent s (.done tree best_path best_node)).optBestPath = best_path
    ∧ (handleOptimizeEvent s (.done tree best_path best_node)).optBestNode = some best_node
    ∧ (handleOptimizeEvent s (.done tree best_path best_node)).protocol = best_node.rule :=
  ⟨rfl, rfl, rfl, rfl⟩

/-- C6: applying an `error` event surfaces the message verbatim and leaves
the accumulated nodes, best path, best node and current round exactly as
they were (`app/page.tsx` lines 158-160). -/
theorem error_preserves_state (s : OptState) (message : String) :
    (handleOptimizeEvent s (.error message)).optError = some message
    ∧ (handleOptimizeEvent s (.error message)).optNodes = s.optNodes
    ∧ (handleOptimizeEvent s (.error message)).optBestPath = s.optBestPath
    ∧ (handleOptimizeEvent s (.error message)).optBestNode = s.optBestNode
    ∧ (handleOptimizeEvent s (.error message)).optCurrentRound = s.optCurrentRound :=
  ⟨rfl, rfl, rfl, rfl, rfl⟩

/-- C8: applying a `base_evaluated` event resets the accumulated set to the
singleton of the event's node, sets the best path to the event's sequence,
sets the best node to the event's node, and resets the round counter to 0
(`app/page.tsx` lines 138-143). -/
theorem base_evaluated_resets (s : OptState) (node : ProtocolNode)
    (best_path : List String) :
    (handleOptimizeEvent s (.base_evaluated node best_path)).optNodes = [node]
    ∧ (handleOptimizeEvent s (.base_evaluated node best_path)).optBestPath = best_path
    ∧ (handleOptimizeEvent s (.base_evaluated node best_path)).optBestNode = some node
    ∧ (handleOptimizeEvent s (.base_evaluated node best_path)).optCurrentRound = 0 :=
  ⟨rfl, rfl, rfl, rfl⟩

/-- C9: the TTS endpoint answers 500 with a fixed detail when the
credential is unset (or empty, which JS treats as unset), 400 when the body
is not valid JSON, 400 when the text field is absent or trims to empty;
and in every one of these cases no upstream request is made
(`app/api/tts/route.ts` lines 12-31). -/
theorem tts_guards (apiKey envVoice envModel envFormat : Option String)
    (body : Option TtsRequest) :
    (envFalsy apiKey = true →
      ttsPost apiKey envVoice envModel envFormat body
        = .earlyResponse 500 "ELEVENLABS_API_KEY is not set")
    ∧ (envFalsy apiKey = false → body = none →
      ttsPost apiKey envVoice envModel envFormat body
        = .earlyResponse 400 "Invalid JSON payload")
    ∧ (∀ b : TtsRequest, envFalsy apiKey = false → body = some b →
      ((b.text.map (fun s => s.trim)).getD "") = "" →
      ttsPost apiKey envVoice envModel envFormat body
        = .earlyResponse 400 "text is required")
    ∧ ((envFalsy apiKey = true ∨ body = none
        ∨ (∃ b : TtsRequest, body = some b
            ∧ ((b.text.map (fun s => s.trim)).getD "") = "")) →
      (ttsPost apiKey envVoice envModel envFormat body).isUpstream = false) := by
  refine ⟨fun h => by simp [ttsPost, h], fun h hb => by simp [ttsPost, h, hb],
    fun b h hb ht => by simp [ttsPost, h, hb, ht], ?_⟩
  rintro (h | h | ⟨b, hb, ht⟩)
  · simp [ttsPost, h, TtsOutcome.isUpstream]
  · cases he : envFalsy apiKey <;>
      simp [ttsPost, h, he, TtsOutcome.isUpstream]
  · cases he : envFalsy apiKey <;>
      simp [ttsPost, hb, ht, he, TtsOutcome.isUpstream]

/-- Witness for the C9 theorem at concrete inputs: unset key gives 500; with
a key, an unparsable body gives 400 and an absent text field gives 400,
none reaching upstream. -/
theorem tts_guards_witness :
    (envFalsy (none : Option String) = true ∧
      ttsPost none none none none (some ⟨some "hi", none, none, none⟩)
        = .earlyResponse 500 "ELEVENLABS_API_KEY is not set")
    ∧ (envFalsy (some "k") = false ∧
      ttsPost (some "k") none none none none
        = .earlyResponse 400 "Invalid JSON payload")
    ∧ (ttsPost (some "k") none none none (some ⟨none, none, none, none⟩)
        = .earlyResponse 400 "text is required")
    ∧ ((ttsPost (some "k") none none none
        (some ⟨none, none, none, none⟩)).isUpstream = false) := by
  refine ⟨⟨by decide, (tts_guards none none none none _).1 (by decide)⟩,
    ⟨by decide, (tts_guards (some "k") none none none none).2.1 (by decide) rfl⟩,
    (tts_guards (some "k") none none none _).2.2.1 ⟨none, none, none, none⟩
      (by decide) rfl (by decide),
    (tts_guards (some "k") none none none _).2.2.2
      (Or.inr (Or.inr ⟨⟨none, none, none, none⟩, rfl, by decide⟩))⟩

end OptCom

namespace OptCom

/-! ## Edge flags (C3) -/

/-- Every edge the traversal emits carries the flag computed from best-path
membership of its two endpoint ids. -/
theorem traverseEdges_flag (vals : List ProtocolNode) (mem : String → Bool) :
    ∀ (fuel : Nat) (n : ProtocolNode) (e : LEdge), e ∈ traverseEdges vals mem fuel n →
      e.isBestPath = (mem e.fromNode.id && mem e.toNode.id) := by
  intro fuel
  induction fuel with
  | zero => intro n e he; simp [traverseEdges] at he
  | succ fuel ih =>
    intro n e he
    simp only [traverseEdges, List.mem_flatten, List.mem_map] at he
    obtain ⟨l, ⟨c, hc, rfl⟩, hel⟩ := he
    rcases List.mem_cons.mp hel with rfl | h
    · rfl
    · exact ih c e h

/-- C3: an emitted parent-child edge is flagged as a best-path edge exactly
when both endpoint ids are members of the best-path list — membership alone;
the position or adjacency of the two ids inside the list plays no role. -/
theorem best_path_edge_flag (nodes : List ProtocolNode) (bp : List String)
    (e : LEdge) (he : e ∈ (layoutEngine nodes bp).edges) :
    e.isBestPath = true ↔ (e.fromNode.id ∈ bp ∧ e.toNode.id ∈ bp) := by
  unfold layoutEngine layoutEngineCore at he
  by_cases h : nodes = []
  · simp [h, emptyLayout] at he
  · simp only [if_neg h] at he
    split at he
    · simp [emptyLayout] at he
    · have := traverseEdges_flag (valsOf nodes) (fun s => bp.contains s) _ _ e he
      rw [this]
      simp [Bool.and_eq_true_iff, List.elem_iff]

/-- Witness for C3: in the §8 scenario the single edge is flagged, and both
its endpoints are on the best path. -/
theorem best_path_edge_flag_witness :
    (⟨exN0, exN1, true⟩ : LEdge) ∈ (layoutEngine [exN0, exN1] ["n0", "n1"]).edges
    ∧ ((⟨exN0, exN1, true⟩ : LEdge).isBestPath = true
        ↔ ((⟨exN0, exN1, true⟩ : LEdge).fromNode.id ∈ ["n0", "n1"]
            ∧ (⟨exN0, exN1, true⟩ : LEdge).toNode.id ∈ ["n0", "n1"])) :=
  ⟨by decide, best_path_edge_flag [exN0, exN1] ["n0", "n1"] ⟨exN0, exN1, true⟩ (by decide)⟩

/-! ## Determinism of the layout engine (C7) -/

/-- C7: the layout engine is a pure function of its inputs, and it consumes
the best-path list only through set membership: two invocations with the
same node list and membership-equal best-path lists produce identical
coordinates, edge lists, edge flags and canvas size. Input non-mutation is
inherent in the functional embedding; the source copies every node into
fresh records (line 46) before positioning them. -/
theorem layout_engine_deterministic (nodes : List ProtocolNode) (bp1 bp2 : List String)
    (h : ∀ s : String, s ∈ bp1 ↔ s ∈ bp2) :
    layoutEngine nodes bp1 = layoutEngine nodes bp2 := by
  unfold layoutEngine
  have hm : (fun s => bp1.contains s) = (fun s => bp2.contains s) := by
    funext s
    by_cases hs : s ∈ bp1
    · have hs2 : s ∈ bp2 := (h s).1 hs
      show bp1.elem s = bp2.elem s
      rw [List.elem_iff.mpr hs, List.elem_iff.mpr hs2]
    · have hs2 : s ∉ bp2 := fun hx => hs ((h s).2 hx)
      show bp1.elem s = bp2.elem s
      have e1 : bp1.elem s = false := by
        cases hc : bp1.elem s
        · rfl
        · exact absurd (List.elem_iff.mp hc) hs
      have e2 : bp2.elem s = false := by
        cases hc : bp2.elem s
        · rfl
        · exact absurd (List.elem_iff.mp hc) hs2
      rw [e1, e2]
  rw [hm]

/-- Witness for C7: a duplicated best-path list is membership-equal to its
dedup, and the engine output at a concrete input is identical for both. -/
theorem layout_engine_deterministic_witness :
    layoutEngine [exN0, exN1] ["n0", "n0", "n1"] = layoutEngine [exN0, exN1] ["n0", "n1"] :=
  layout_engine_deterministic [exN0, exN1] ["n0", "n0", "n1"] ["n0", "n1"]
    (fun s => by simp [List.mem_cons])

end OptCom

namespace OptCom

/-! ## The node map keeps the input order when ids are distinct -/

/-- Folding `Map.set` over nodes with pairwise distinct ids appends one
fresh entry per node. -/
theorem buildMap_aux (nodes : List ProtocolNode) :
    ∀ acc : List (String × ProtocolNode),
      (nodes.map ProtocolNode.id).Nodup →
      (∀ n ∈ nodes, acc.any (fun p => decide (p.1 = n.id)) = false) →
      nodes.foldl (fun m n => mapInsert m n.id n) acc
        = acc ++ nodes.map (fun n => (n.id, n)) := by
  induction nodes with
  | nil => intro acc _ _; simp
  | cons x xs ih =>
    intro acc hnd hacc
    have hx : acc.any (fun p => decide (p.1 = x.id)) = false := hacc x (by simp)
    rw [List.foldl_cons]
    have hins : mapInsert acc x.id x = acc ++ [(x.id, x)] := by
      simp only [mapInsert, hx]
      simp
    rw [hins]
    have hnd' : (xs.map ProtocolNode.id).Nodup := (List.nodup_cons.mp (by simpa using hnd)).2
    have hhead : x.id ∉ xs.map ProtocolNode.id := (List.nodup_cons.mp (by simpa using hnd)).1
    have hacc' : ∀ n ∈ xs, (acc ++ [(x.id, x)]).any (fun p => decide (p.1 = n.id)) = false := by
      intro n hn
      rw [List.any_append]
      have h1 : acc.any (fun p => decide (p.1 = n.id)) = false := hacc n (by simp [hn])
      have h2 : ([(x.id, x)]).any (fun p => decide (p.1 = n.id)) = false := by
        simp only [List.any_cons, List.any_nil, Bool.or_false, decide_eq_false_iff_not]
        intro hxe
        exact hhead (hxe ▸ List.mem_map_of_mem ProtocolNode.id hn)
      rw [h1, h2]
      rfl
    rw [ih (acc ++ [(x.id, x)]) hnd' hacc']
    simp

/-- With pairwise distinct ids the map values are exactly the input nodes
in input (append) order. -/
theorem valsOf_eq_self (nodes : List ProtocolNode)
    (hids : (nodes.map ProtocolNode.id).Nodup) : valsOf nodes = nodes := by
  unfold valsOf buildMap
  rw [buildMap_aux nodes [] hids (by intro n _; rfl)]
  have hcomp : (Prod.snd ∘ fun n : ProtocolNode => (n.id, n)) = id := rfl
  simp only [List.nil_append, List.map_map, hcomp, List.map_id]

/-! ## Sorting lemmas for the round rows (C2) -/

/-- A strict key comparison implies the reflexive one. -/
theorem keyLe_of_keyLt (mem : String → Bool) (a b : ProtocolNode) (h : keyLt mem a b) :
    keyLe mem a b := by
  rcases h with h | ⟨he, ht⟩
  · exact Or.inl h
  · exact Or.inr ⟨he, le_of_lt ht⟩

/-- The two-key order is total: failure of `a < b` gives `b ≤ a`. -/
theorem keyLe_of_not_keyLt (mem : String → Bool) (a b : ProtocolNode)
    (h : ¬ keyLt mem a b) : keyLe mem b a := by
  unfold keyLt at h
  push_neg at h
  obtain ⟨h1, h2⟩ := h
  rcases Nat.lt_or_ge (bestRank mem b) (bestRank mem a) with hba | hba
  · exact Or.inl hba
  · have heq : bestRank mem a = bestRank mem b := Nat.le_antisymm hba h1
    exact Or.inr ⟨heq.symm, h2 heq⟩

/-- Strict-then-reflexive transitivity of the two-key order. -/
theorem keyLt_of_keyLt_of_keyLe (mem : String → Bool) {a b c : ProtocolNode}
    (h1 : keyLt mem a b) (h2 : keyLe mem b c) : keyLt mem a c := by
  rcases h1 with h1 | ⟨he1, ht1⟩ <;> rcases h2 with h2 | ⟨he2, ht2⟩
  · exact Or.inl (lt_trans h1 h2)
  · exact Or.inl (he2 ▸ h1)
  · exact Or.inl (he1 ▸ h2)
  · exact Or.inr ⟨he1.trans he2, lt_of_lt_of_le ht1 ht2⟩

/-- Strictly ordered nodes have different sort keys. -/
theorem keyLt_ne (mem : String → Bool) (a b : ProtocolNode) (h : keyLt mem a b) :
    sortKey mem a ≠ sortKey mem b := by
  intro he
  have h1 : bestRank mem a = bestRank mem b := congrArg Prod.fst he
  have h2 : a.communication_tokens = b.communication_tokens := congrArg Prod.snd he
  rcases h with h | ⟨_, ht⟩
  · exact absurd h (h1 ▸ lt_irrefl _)
  · exact absurd ht (h2 ▸ lt_irrefl _)

/-- The source comparator decides exactly the strict two-key order. -/
theorem nodeLt_iff (mem : String → Bool) (a b : ProtocolNode) :
    nodeLt mem a b = true ↔ keyLt mem a b := by
  unfold nodeLt keyLt
  split_ifs with h1 h2
  · exact iff_of_true rfl (Or.inl h1)
  · refine iff_of_false (by simp) ?_
    rintro (h | ⟨he, _⟩)
    · exact h1 h
    · exact absurd h2 (he ▸ lt_irrefl _)
  · have he : bestRank mem a = bestRank mem b :=
      Nat.le_antisymm (Nat.le_of_not_lt h2) (Nat.le_of_not_lt h1)
    constructor
    · intro hd
      exact Or.inr ⟨he, of_decide_eq_true hd⟩
    · rintro (h | ⟨_, ht⟩)
      · exact absurd h h1
      · exact decide_eq_true ht

/-- Stable insertion permutes: the result holds the new element and the
old ones. -/
theorem insSorted_perm (mem : String → Bool) (x : ProtocolNode) :
    ∀ l : List ProtocolNode, List.Perm (insSorted mem x l) (x :: l) := by
  intro l
  induction l with
  | nil => exact List.Perm.refl _
  | cons y ys ih =>
    rw [insSorted]
    by_cases h : nodeLt mem x y
    · rw [if_pos h]
    · rw [if_neg h]
      exact (ih.cons y).trans (List.Perm.swap x y ys)

/-- Folding stable insertion over the row permutes the row. -/
theorem sortRound_perm_aux (mem : String → Bool) :
    ∀ (g acc : List ProtocolNode),
      List.Perm (g.foldl (fun a x => insSorted mem x a) acc) (acc ++ g) := by
  intro g
  induction g with
  | nil => intro acc; simp
  | cons x xs ih =>
    intro acc
    rw [List.foldl_cons]
    refine (ih (insSorted mem x acc)).trans ?_
    refine ((insSorted_perm mem x acc).append_right xs).trans ?_
    exact List.perm_middle.symm

/-- The sorted row is a permutation of the round group. -/
theorem sortRound_perm (mem : String → Bool) (g : List ProtocolNode) :
    List.Perm (sortRound mem g) g := by
  simpa using sortRound_perm_aux mem g []

end OptCom

namespace OptCom

/-- Stable insertion into a row sorted by the two-key order keeps it
sorted. -/
theorem insSorted_pairwise (mem : String → Bool) (x : ProtocolNode) :
    ∀ l : List ProtocolNode, l.Pairwise (keyLe mem) →
      (insSorted mem x l).Pairwise (keyLe mem) := by
  intro l
  induction l with
  | nil => intro _; simp [insSorted]
  | cons y ys ih =>
    intro h
    rcases List.pairwise_cons.mp h with ⟨hy, hys⟩
    rw [insSorted]
    by_cases hlt : nodeLt mem x y
    · rw [if_pos hlt]
      have hxy : keyLt mem x y := (nodeLt_iff mem x y).mp hlt
      refine List.pairwise_cons.mpr ⟨?_, h⟩
      intro z hz
      rcases List.mem_cons.mp hz with rfl | hz2
      · exact keyLe_of_keyLt mem x z hxy
      · exact keyLe_of_keyLt mem x z (keyLt_of_keyLt_of_keyLe mem hxy (hy z hz2))
    · rw [if_neg hlt]
      refine List.pairwise_cons.mpr ⟨?_, ih hys⟩
      intro z hz
      have hz2 := (insSorted_perm mem x ys).mem_iff.mp hz
      rcases List.mem_cons.mp hz2 with rfl | hz3
      · exact keyLe_of_not_keyLt mem z y (fun hc => hlt ((nodeLt_iff mem z y).mpr hc))
      · exact hy z hz3

/-- Folding stable insertion over the row yields a sorted row. -/
theorem sortRound_pairwise_aux (mem : String → Bool) :
    ∀ (g acc : List ProtocolNode), acc.Pairwise (keyLe mem) →
      (g.foldl (fun a x => insSorted mem x a) acc).Pairwise (keyLe mem) := by
  intro g
  induction g with
  | nil => intro acc h; simpa using h
  | cons x xs ih =>
    intro acc h
    rw [List.foldl_cons]
    exact ih _ (insSorted_pairwise mem x acc h)

/-- The sorted row is non-decreasing in the two-key order. -/
theorem sortRound_pairwise (mem : String → Bool) (g : List ProtocolNode) :
    (sortRound mem g).Pairwise (keyLe mem) :=
  sortRound_pairwise_aux mem g [] (by simp)

/-- Inserting an element of a different key class leaves that class's
members untouched. -/
theorem insSorted_filter_ne (mem : String → Bool) (K : Nat × ℚ) (x : ProtocolNode)
    (hx : sortKey mem x ≠ K) :
    ∀ l : List ProtocolNode, keyFilter mem K (insSorted mem x l) = keyFilter mem K l := by
  intro l
  induction l with
  | nil => simp [insSorted, keyFilter, hx]
  | cons y ys ih =>
    rw [insSorted]
    by_cases hlt : nodeLt mem x y
    · rw [if_pos hlt]
      simp [keyFilter, List.filter_cons, hx]
    · rw [if_neg hlt]
      simp only [keyFilter, List.filter_cons] at ih ⊢
      by_cases hy : sortKey mem y = K
      · simp [hy, ih]
      · simp [hy, ih]

/-- Inserting an element of a key class into a sorted row appends it after
every present member of that class: ties keep arrival order. -/
theorem insSorted_filter_eq (mem : String → Bool) (K : Nat × ℚ) (x : ProtocolNode)
    (hx : sortKey mem x = K) :
    ∀ l : List ProtocolNode, l.Pairwise (keyLe mem) →
      keyFilter mem K (insSorted mem x l) = keyFilter mem K l ++ [x] := by
  intro l
  induction l with
  | nil => intro _; simp [insSorted, keyFilter, hx]
  | cons y ys ih =>
    intro hsorted
    rcases List.pairwise_cons.mp hsorted with ⟨hy, hys⟩
    rw [insSorted]
    by_cases hlt : nodeLt mem x y
    · rw [if_pos hlt]
      have hxy : keyLt mem x y := (nodeLt_iff mem x y).mp hlt
      have hnil : keyFilter mem K (y :: ys) = [] := by
        apply List.filter_eq_nil_iff.mpr
        intro z hz
        have hxz : keyLt mem x z := by
          rcases List.mem_cons.mp hz with rfl | hz2
          · exact hxy
          · exact keyLt_of_keyLt_of_keyLe mem hxy (hy z hz2)
        have hne : sortKey mem x ≠ sortKey mem z := keyLt_ne mem x z hxz
        simp only [decide_eq_true_eq]
        intro hzk
        exact hne (by rw [hzk, hx])
      have hxcons : keyFilter mem K (x :: y :: ys) = x :: keyFilter mem K (y :: ys) := by
        simp [keyFilter, List.filter_cons, hx]
      rw [hxcons, hnil]
      rfl
    · rw [if_neg hlt]
      simp only [keyFilter, List.filter_cons] at ih ⊢
      by_cases hy2 : sortKey mem y = K
      · rw [if_pos (decide_eq_true hy2), if_pos (decide_eq_true hy2)]
        rw [ih hys]
        rfl
      · rw [if_neg (by simp [hy2]), if_neg (by simp [hy2])]
        exact ih hys

/-- Folding over the row: the members of each key class end up being the
class members of the sorted prefix followed by those of the rest. -/
theorem sortRound_filter_aux (mem : String → Bool) (K : Nat × ℚ) :
    ∀ (g acc : List ProtocolNode), acc.Pairwise (keyLe mem) →
      keyFilter mem K (g.foldl (fun a x => insSorted mem x a) acc)
        = keyFilter mem K acc ++ keyFilter mem K g := by
  intro g
  induction g with
  | nil => intro acc _; simp [keyFilter]
  | cons x xs ih =>
    intro acc hacc
    rw [List.foldl_cons, ih _ (insSorted_pairwise mem x acc hacc)]
    by_cases hx : sortKey mem x = K
    · rw [insSorted_filter_eq mem K x hx acc hacc]
      have hxcons : keyFilter mem K (x :: xs) = x :: keyFilter mem K xs := by
        simp [keyFilter, List.filter_cons, hx]
      rw [hxcons, List.append_assoc]
      rfl
    · rw [insSorted_filter_ne mem K x hx acc]
      have hxcons : keyFilter mem K (x :: xs) = keyFilter mem K xs := by
        simp [keyFilter, List.filter_cons, hx]
      rw [hxcons]

/-- Stability of the round sort: inside every tie class of the two-key
order, the sorted row lists the nodes in their original (append) order. -/
theorem sortRound_filter (mem : String → Bool) (K : Nat × ℚ) (g : List ProtocolNode) :
    keyFilter mem K (sortRound mem g) = keyFilter mem K g := by
  have := sortRound_filter_aux mem K g [] (by simp)
  simpa [keyFilter] using this

/-- Lengths through the first positioning pass. -/
theorem assignRow_length (r : Nat) :
    ∀ (i : Nat) (l : List ProtocolNode), (assignRow r i l).length = l.length := by
  intro i l
  induction l generalizing i with
  | nil => rfl
  | cons n rest ih => simp [assignRow, ih]

/-- Indexing the centered row: the k-th entry is the k-th sorted node at
x = (start+k)*(width+spacing) + width/2 + offset and the round's y. -/
theorem centerRow_assignRow_get (r : Nat) (off : ℚ) :
    ∀ (l : List ProtocolNode) (i k : Nat) (n : ProtocolNode), l.get? k = some n →
      (centerRow off (assignRow r i l)).get? k
        = some (n,
           ((i + k : Nat) : ℚ) * (NODE_WIDTH + NODE_SPACING) + NODE_WIDTH / 2 + off,
           (r : ℚ) * LEVEL_HEIGHT + NODE_HEIGHT / 2 + 40) := by
  intro l
  induction l with
  | nil => intro i k n h; simp at h
  | cons m rest ih =>
    intro i k n h
    cases k with
    | zero =>
      have hm : m = n := by simpa using h
      subst hm
      simp [centerRow, assignRow]
    | succ k2 =>
      have h2 := ih (i+1) k2 n (by simpa using h)
      have hcons : centerRow off (assignRow r i (m :: rest))
          = (m, (i : ℚ) * (NODE_WIDTH + NODE_SPACING) + NODE_WIDTH / 2 + off,
             (r : ℚ) * LEVEL_HEIGHT + NODE_HEIGHT / 2 + 40)
            :: centerRow off (assignRow r (i+1) rest) := by
        simp [centerRow, assignRow]
      rw [hcons, List.get?_cons_succ, h2]
      have harith : ((i + 1) + k2 : Nat) = (i + (k2 + 1) : Nat) := by omega
      rw [harith]

end OptCom

namespace OptCom

/-- C2: for a non-empty node set with distinct ids and a root, each round's
nodes are ordered by the two-key sort — best-path members before all
others, then ascending `communication_tokens`, ties kept in original
append order (stability) — and the k-th node (0-indexed) of that order is
placed at `x = k*(NODE_WIDTH+NODE_SPACING) + NODE_WIDTH/2` plus the
centering offset `(maxWidth - thisRowWidth)/2`, and at
`y = round_index*LEVEL_HEIGHT + NODE_HEIGHT/2 + 40`; these rows are
exactly what the engine emits (`OptimizationTree.tsx` lines 82-113). -/
theorem round_rows_sorted_and_centered (nodes : List ProtocolNode) (bp : List String)
    (r : Nat) (hids : (nodes.map ProtocolNode.id).Nodup)
    (hne : nodes ≠ []) (hroot : (findRoot (valsOf nodes)).isSome) :
    List.Perm (sortRound (fun s => bp.contains s) (roundGroup nodes r)) (roundGroup nodes r)
    ∧ (sortRound (fun s => bp.contains s) (roundGroup nodes r)).Pairwise
        (keyLe (fun s => bp.contains s))
    ∧ (∀ K : Nat × ℚ,
        keyFilter (fun s => bp.contains s) K
            (sortRound (fun s => bp.contains s) (roundGroup nodes r))
          = keyFilter (fun s => bp.contains s) K (roundGroup nodes r))
    ∧ (∀ (k : Nat) (n : ProtocolNode),
        (sortRound (fun s => bp.contains s) (roundGroup nodes r)).get? k = some n →
        (layoutRound nodes (fun s => bp.contains s) r).get? k
          = some (n,
             (k : ℚ) * (NODE_WIDTH + NODE_SPACING) + NODE_WIDTH / 2
               + (maxRowWidth nodes - rowWidth (roundGroup nodes r).length) / 2,
             (r : ℚ) * LEVEL_HEIGHT + NODE_HEIGHT / 2 + 40))
    ∧ (layoutEngine nodes bp).rows
        = (keysInOrder nodes).map
            (fun rd => (rd, layoutRound nodes (fun s => bp.contains s) rd)) := by
  have hv : valsOf nodes = nodes := valsOf_eq_self nodes hids
  refine ⟨sortRound_perm _ _, sortRound_pairwise _ _, fun K => sortRound_filter _ K _,
    ?_, ?_⟩
  · intro k n h
    have := centerRow_assignRow_get r
      ((maxRowWidth nodes - rowWidth (roundGroup nodes r).length) / 2)
      (sortRound (fun s => bp.contains s) (roundGroup nodes r)) 0 k n h
    simpa [layoutRound] using this
  · obtain ⟨root, hr⟩ := Option.isSome_iff_exists.mp hroot
    simp only [layoutEngine, layoutEngineCore, if_neg hne, hv] at hr ⊢
    rw [hr]

end OptCom

namespace OptCom

/-- Witness for C2 at a concrete input: three nodes, best path `r`; the
round-1 row is the permuted group, and its first node `orA` (10 tokens,
before `orB` with 20) sits at the stated coordinates. -/
theorem round_rows_sorted_and_centered_witness :
    List.Perm (sortRound (fun s => ["r"].contains s) (roundGroup [orR, orA, orB] 1))
        (roundGroup [orR, orA, orB] 1)
    ∧ (layoutRound [orR, orA, orB] (fun s => ["r"].contains s) 1).get? 0
        = some (orA,
           (0 : ℚ) * (NODE_WIDTH + NODE_SPACING) + NODE_WIDTH / 2
             + (maxRowWidth [orR, orA, orB] - rowWidth (roundGroup [orR, orA, orB] 1).length) / 2,
           (1 : ℚ) * LEVEL_HEIGHT + NODE_HEIGHT / 2 + 40) := by
  have h := round_rows_sorted_and_centered [orR, orA, orB] ["r"] 1
    (by decide) (by decide) (by decide)
  exact ⟨h.1, by simpa using h.2.2.2.1 0 orA (by decide)⟩

end OptCom

namespace OptCom

/-! ## Orphan handling (C10) and root detection -/

/-- Unfolding the root-detection fold: a produced root is the initial
accumulator or a null-parent member. -/
theorem findRoot_aux :
    ∀ (vals : List ProtocolNode) (acc : Option ProtocolNode) (r : ProtocolNode),
      vals.foldl (fun a n => if n.parent_id = none then some n else a) acc = some r →
      acc = some r ∨ (r ∈ vals ∧ r.parent_id = none) := by
  intro vals
  induction vals with
  | nil => intro acc r h; exact Or.inl h
  | cons x xs ih =>
    intro acc r h
    rw [List.foldl_cons] at h
    rcases ih _ r h with hacc | hmem
    · by_cases hx : x.parent_id = none
      · rw [if_pos hx] at hacc
        have hxr : x = r := by injection hacc
        exact Or.inr ⟨by simp [hxr.symm ▸ List.mem_cons_self x xs, hxr], hxr ▸ hx⟩
      · rw [if_neg hx] at hacc
        exact Or.inl hacc
    · exact Or.inr ⟨List.mem_cons_of_mem x hmem.1, hmem.2⟩

/-- The detected root is a map value with the no-parent sentinel. -/
theorem findRoot_spec (vals : List ProtocolNode) (r : ProtocolNode)
    (h : findRoot vals = some r) : r ∈ vals ∧ r.parent_id = none := by
  rcases findRoot_aux vals none r h with hacc | hmem
  · exact absurd hacc (by simp)
  · exact hmem

/-- Membership in the node map's children list. -/
theorem mem_childrenOf (vals : List ProtocolNode) (p c : ProtocolNode) :
    c ∈ childrenOf vals p ↔ c ∈ vals ∧ c.parent_id = some p.id := by
  simp [childrenOf, List.mem_filter]

/-- Every rendered node is the traversal start or a map value whose parent
id resolves to a map value. -/
theorem traverseAll_mem_cases (vals : List ProtocolNode) :
    ∀ (fuel : Nat) (n x : ProtocolNode), n ∈ vals → x ∈ traverseAll vals fuel n →
      x = n ∨ (x ∈ vals ∧ ∃ p ∈ vals, x.parent_id = some p.id) := by
  intro fuel
  induction fuel with
  | zero => intro n x _ hx; simp [traverseAll] at hx
  | succ fuel ih =>
    intro n x hn hx
    simp only [traverseAll, List.mem_cons, List.mem_flatten, List.mem_map] at hx
    rcases hx with rfl | ⟨l, ⟨c, hc, rfl⟩, hxl⟩
    · exact Or.inl rfl
    · have hcv := (mem_childrenOf vals n c).mp hc
      rcases ih c x hcv.1 hxl with rfl | hres
      · exact Or.inr ⟨hcv.1, n, hn, hcv.2⟩
      · exact Or.inr hres

/-- Both endpoints of every emitted edge are map values; the child end's
parent id resolves in the map, and the parent end is the traversal start
or also resolves. -/
theorem traverseEdges_endpoints (vals : List ProtocolNode) (mem : String → Bool) :
    ∀ (fuel : Nat) (n : ProtocolNode) (e : LEdge), n ∈ vals →
      (n.parent_id = none ∨ ∃ p ∈ vals, n.parent_id = some p.id) →
      e ∈ traverseEdges vals mem fuel n →
      ((e.fromNode.parent_id = none ∨ ∃ p ∈ vals, e.fromNode.parent_id = some p.id)
        ∧ (∃ p ∈ vals, e.toNode.parent_id = some p.id)
        ∧ e.fromNode ∈ vals ∧ e.toNode ∈ vals) := by
  intro fuel
  induction fuel with
  | zero => intro n e _ _ he; simp [traverseEdges] at he
  | succ fuel ih =>
    intro n e hn hinv he
    simp only [traverseEdges, List.mem_flatten, List.mem_map] at he
    obtain ⟨l, ⟨c, hc, rfl⟩, hel⟩ := he
    have hcv := (mem_childrenOf vals n c).mp hc
    rcases List.mem_cons.mp hel with rfl | h2
    · exact ⟨hinv, ⟨n, hn, hcv.2⟩, hn, hcv.1⟩
    · exact ih c e hcv.1 (Or.inr ⟨n, hn, hcv.2⟩) h2

/-- C10: an orphan node — parent id neither the sentinel nor resolving in
the map — never appears in the rendered node list and is no endpoint of
any edge, yet it does take part in round grouping, sorting, row width and
centering: at a concrete input, adding the round-1 orphan `orOrphan`
shifts the rendered node `orA` from x = 70 to x = 230 and widens the
canvas from 800 to 860 (`OptimizationTree.tsx` lines 72-113, 141-154). -/
theorem orphans_excluded_but_occupy_space :
    (∀ (nodes : List ProtocolNode) (bp : List String) (x : ProtocolNode),
      x ∈ (layoutEngine nodes bp).renderedNodes →
      x.parent_id = none ∨ ∃ p ∈ valsOf nodes, x.parent_id = some p.id)
    ∧ (∀ (nodes : List ProtocolNode) (bp : List String) (e : LEdge),
      e ∈ (layoutEngine nodes bp).edges →
      ((e.fromNode.parent_id = none ∨ ∃ p ∈ valsOf nodes, e.fromNode.parent_id = some p.id)
        ∧ ∃ p ∈ valsOf nodes, e.toNode.parent_id = some p.id))
    ∧ ((layoutEngine [orR, orA, orB, orC, orD] []).width = 800
        ∧ (layoutEngine [orR, orA, orB, orC, orD, orOrphan] []).width = 860)
    ∧ ((layoutRound [orR, orA, orB, orC, orD] (fun s => List.contains [] s) 1).get? 0
        = some (orA, 70, 240)
      ∧ (layoutRound [orR, orA, orB, orC, orD, orOrphan]
          (fun s => List.contains [] s) 1).get? 0 = some (orOrphan, 70, 240)
      ∧ (layoutRound [orR, orA, orB, orC, orD, orOrphan]
          (fun s => List.contains [] s) 1).get? 1 = some (orA, 230, 240))
    ∧ orOrphan ∉ (layoutEngine [orR, orA, orB, orC, orD, orOrphan] []).renderedNodes := by
  have hsimp1 : (layoutEngine [orR, orA, orB, orC, orD] []).width = 800 := by
    simp [layoutEngine, layoutEngineCore, valsOf, buildMap, mapInsert, findRoot,
      keysInOrder, roundGroup, maxRowWidth, qmax, rowWidth, NODE_WIDTH, NODE_SPACING,
      LEVEL_HEIGHT, NODE_HEIGHT, orR, orA, orB, orC, orD]
    norm_num
  have hsimp2 : (layoutEngine [orR, orA, orB, orC, orD, orOrphan] []).width = 860 := by
    simp [layoutEngine, layoutEngineCore, valsOf, buildMap, mapInsert, findRoot,
      keysInOrder, roundGroup, maxRowWidth, qmax, rowWidth, NODE_WIDTH, NODE_SPACING,
      LEVEL_HEIGHT, NODE_HEIGHT, orR, orA, orB, orC, orD, orOrphan]
    norm_num
  have hrow1 : (layoutRound [orR, orA, orB, orC, orD] (fun s => List.contains [] s) 1).get? 0
      = some (orA, 70, 240) := by
    simp [layoutRound, centerRow, assignRow, sortRound, insSorted, nodeLt, bestRank,
      valsOf, buildMap, mapInsert, keysInOrder, roundGroup, maxRowWidth, qmax, rowWidth,
      NODE_WIDTH, NODE_SPACING, LEVEL_HEIGHT, NODE_HEIGHT, orR, orA, orB, orC, orD]
    norm_num
  have hrow2 : (layoutRound [orR, orA, orB, orC, orD, orOrphan]
      (fun s => List.contains [] s) 1).get? 0 = some (orOrphan, 70, 240) := by
    simp [layoutRound, centerRow, assignRow, sortRound, insSorted, nodeLt, bestRank,
      valsOf, buildMap, mapInsert, keysInOrder, roundGroup, maxRowWidth, qmax, rowWidth,
      NODE_WIDTH, NODE_SPACING, LEVEL_HEIGHT, NODE_HEIGHT, orR, orA, orB, orC, orD, orOrphan]
    norm_num
  have hrow3 : (layoutRound [orR, orA, orB, orC, orD, orOrphan]
      (fun s => List.contains [] s) 1).get? 1 = some (orA, 230, 240) := by
    simp [layoutRound, centerRow, assignRow, sortRound, insSorted, nodeLt, bestRank,
      valsOf, buildMap, mapInsert, keysInOrder, roundGroup, maxRowWidth, qmax, rowWidth,
      NODE_WIDTH, NODE_SPACING, LEVEL_HEIGHT, NODE_HEIGHT, orR, orA, orB, orC, orD, orOrphan]
    norm_num
  refine ⟨?_, ?_, ⟨hsimp1, hsimp2⟩, ⟨hrow1, hrow2, hrow3⟩, by decide⟩
  · intro nodes bp x hx
    unfold layoutEngine layoutEngineCore at hx
    by_cases h : nodes = []
    · simp [h, emptyLayout] at hx
    · simp only [if_neg h] at hx
      split at hx
      · simp [emptyLayout] at hx
      · rename_i root hr
        have hroot := findRoot_spec (valsOf nodes) root hr
        rcases traverseAll_mem_cases (valsOf nodes) _ root x hroot.1 hx with rfl | hres
        · exact Or.inl hroot.2
        · exact Or.inr hres.2
  · intro nodes bp e he
    unfold layoutEngine layoutEngineCore at he
    by_cases h : nodes = []
    · simp [h, emptyLayout] at he
    · simp only [if_neg h] at he
      split at he
      · simp [emptyLayout] at he
      · rename_i root hr
        have hroot := findRoot_spec (valsOf nodes) root hr
        have := traverseEdges_endpoints (valsOf nodes) (fun s => bp.contains s)
          _ root e hroot.1 (Or.inl hroot.2) he
        exact ⟨this.1, this.2.1⟩

/-- Witness for C10 applying the quantified parts at the orphan input: the
rendered node `orA` is no orphan, and the unique edge endpoints resolve. -/
theorem orphans_excluded_witness :
    (orA.parent_id = none ∨ ∃ p ∈ valsOf [orR, orA, orB, orC, orD, orOrphan],
      orA.parent_id = some p.id)
    ∧ (((⟨orR, orA, false⟩ : LEdge).fromNode.parent_id = none
        ∨ ∃ p ∈ valsOf [orR, orA, orB, orC, orD, orOrphan],
            (⟨orR, orA, false⟩ : LEdge).fromNode.parent_id = some p.id)
      ∧ ∃ p ∈ valsOf [orR, orA, orB, orC, orD, orOrphan],
          (⟨orR, orA, false⟩ : LEdge).toNode.parent_id = some p.id) := by
  constructor
  · exact orphans_excluded_but_occupy_space.1 [orR, orA, orB, orC, orD, orOrphan] []
      orA (by decide)
  · exact orphans_excluded_but_occupy_space.2.1 [orR, orA, orB, orC, orD, orOrphan] []
      ⟨orR, orA, false⟩ (by decide)

end OptCom

namespace OptCom

/-! ## Edge counting (C1)

The claim quantifies over node sets whose parent ids all resolve. That
alone does not force the parent relation to be a tree: a parent cycle
(`cycA` and `cycB` point at one another) resolves within the set but is
unreachable from the root, so the traversal emits no edge for it. The
amended statement adds acyclicity: every node's parent chain terminates
(`depthTo` is defined) — then the emitted edge count is the node count
minus one and exactly the root lacks an incoming edge. -/

/-- Counterexample to C1 as stated: in `[cycR, cycA, cycB]` exactly one
node has the no-parent sentinel and every other `parent_id` resolves
within the set, yet the engine emits 0 edges, not 3 - 1 = 2. -/
theorem edge_count_counterexample :
    (([cycR, cycA, cycB].filter (fun n => n.parent_id.isNone)).length = 1
      ∧ ∀ n ∈ [cycR, cycA, cycB], ∀ p : String, n.parent_id = some p →
          p ∈ [cycR, cycA, cycB].map ProtocolNode.id)
    ∧ ¬ (layoutEngine [cycR, cycA, cycB] []).edges.length
        = [cycR, cycA, cycB].length - 1 := by
  exact ⟨⟨by decide, by decide⟩, by decide⟩

/-- In a map with unique keys, looking a node's own id up returns the
node. -/
theorem parentLookup_self (vals : List ProtocolNode)
    (hids : (vals.map ProtocolNode.id).Nodup) (n : ProtocolNode) (hn : n ∈ vals) :
    parentLookup vals n.id = some n := by
  cases hf : parentLookup vals n.id with
  | none =>
    have := List.find?_eq_none.mp hf n hn
    simp at this
  | some m =>
    have h1 : m.id = n.id := by
      have := List.find?_some hf
      simpa using this
    have h2 : m ∈ vals := List.mem_of_find?_eq_some hf
    have := List.inj_on_of_nodup_map hids h2 hn h1
    rw [this]

/-- A member found by `parentOf` is a map value. -/
theorem parentOf_mem (vals : List ProtocolNode) (n q : ProtocolNode)
    (h : parentOf vals n = some q) : q ∈ vals := by
  unfold parentOf at h
  cases hp : n.parent_id with
  | none => rw [hp] at h; exact absurd h (by simp)
  | some p => rw [hp] at h; exact List.mem_of_find?_eq_some h

/-- A child of `n` in the unique-keyed map has `parentOf` equal to `n`. -/
theorem parentOf_of_child (vals : List ProtocolNode)
    (hids : (vals.map ProtocolNode.id).Nodup) (n c : ProtocolNode) (hn : n ∈ vals)
    (hc : c.parent_id = some n.id) : parentOf vals c = some n := by
  unfold parentOf
  rw [hc]
  exact parentLookup_self vals hids n hn

/-- Conversely, `parentOf c = some n` forces the child link `c.parent_id =
some n.id`. -/
theorem child_of_parentOf (vals : List ProtocolNode) (n c : ProtocolNode)
    (h : parentOf vals c = some n) : c.parent_id = some n.id := by
  unfold parentOf at h
  cases hp : c.parent_id with
  | none => rw [hp] at h; exact absurd h (by simp)
  | some p =>
    rw [hp] at h
    have : n.id = p := by simpa using List.find?_some h
    rw [this]

/-- A no-parent node has chain length 0 at any fuel. -/
theorem depthTo_of_none (vals : List ProtocolNode) (f : Nat) (n : ProtocolNode)
    (h : n.parent_id = none) : depthTo vals f n = some 0 := by
  cases f <;> simp [depthTo, h]

/-- A chain of length 0 ends at a no-parent node. -/
theorem parent_none_of_depth_zero (vals : List ProtocolNode) (f : Nat)
    (n : ProtocolNode) (h : depthTo vals f n = some 0) : n.parent_id = none := by
  cases hp : n.parent_id with
  | none => rfl
  | some p =>
    exfalso
    cases f with
    | zero => simp [depthTo, hp] at h
    | succ f =>
      simp only [depthTo, hp] at h
      cases hq : parentLookup vals p with
      | none => simp [hq] at h
      | some q =>
        simp only [hq] at h
        cases hd : depthTo vals f q with
        | none => simp [hd] at h
        | some k => simp [hd] at h

/-- Assembling a chain: resolved parent plus its chain give the child's
chain. -/
theorem depthTo_build (vals : List ProtocolNode) (f : Nat) (n q : ProtocolNode)
    (p : String) (k2 : Nat) (hp : n.parent_id = some p)
    (hq : parentLookup vals p = some q) (hd : depthTo vals f q = some k2) :
    depthTo vals (f+1) n = some (k2+1) := by
  simp [depthTo, hp, hq, hd]

/-- Chain length is monotone in the fuel. -/
theorem depthTo_succ (vals : List ProtocolNode) :
    ∀ (f : Nat) (n : ProtocolNode) (k : Nat), depthTo vals f n = some k →
      depthTo vals (f+1) n = some k := by
  intro f
  induction f with
  | zero =>
    intro n k h
    cases hp : n.parent_id with
    | none =>
      simp only [depthTo, hp] at h ⊢
      exact h
    | some p => simp [depthTo, hp] at h
  | succ f ih =>
    intro n k h
    cases hp : n.parent_id with
    | none =>
      simp only [depthTo, hp] at h ⊢
      exact h
    | some p =>
      simp only [depthTo, hp] at h
      cases hq : parentLookup vals p with
      | none => simp [hq] at h
      | some q =>
        simp only [hq] at h
        cases hd : depthTo vals f q with
        | none => simp [hd] at h
        | some k2 =>
          simp [hd] at h
          rw [← h]
          exact depthTo_build vals (f+1) n q p k2 hp hq (ih q k2 hd)

/-- Chain length is preserved by any larger fuel. -/
theorem depthTo_mono (vals : List ProtocolNode) {f g : Nat} (hfg : f ≤ g) :
    ∀ (n : ProtocolNode) (k : Nat), depthTo vals f n = some k →
      depthTo vals g n = some k := by
  induction g, hfg using Nat.le_induction with
  | base => intro n k h; exact h
  | succ g hg ih => intro n k h; exact depthTo_succ vals g n k (ih n k h)

/-- A defined chain is no longer than its fuel. -/
theorem depthTo_le (vals : List ProtocolNode) :
    ∀ (f : Nat) (n : ProtocolNode) (k : Nat), depthTo vals f n = some k → k ≤ f := by
  intro f
  induction f with
  | zero =>
    intro n k h
    cases hp : n.parent_id with
    | none => simp only [depthTo, hp, Option.some.injEq] at h; omega
    | some p => simp [depthTo, hp] at h
  | succ f ih =>
    intro n k h
    cases hp : n.parent_id with
    | none => simp only [depthTo, hp, Option.some.injEq] at h; omega
    | some p =>
      simp only [depthTo, hp] at h
      cases hq : parentLookup vals p with
      | none => simp [hq] at h
      | some q =>
        simp only [hq] at h
        cases hd : depthTo vals f q with
        | none => simp [hd] at h
        | some k2 =>
          simp [hd] at h
          have := ih q k2 hd
          omega

/-- Peeling one step off a defined chain through the resolved parent. -/
theorem depthTo_parent_step (vals : List ProtocolNode) (f : Nat) (n q : ProtocolNode)
    (k : Nat) (hq : parentOf vals n = some q) (h : depthTo vals (f+1) n = some k) :
    ∃ k2, depthTo vals f q = some k2 ∧ k = k2 + 1 := by
  cases hp : n.parent_id with
  | none =>
    unfold parentOf at hq
    rw [hp] at hq
    exact absurd hq (by simp)
  | some p =>
    have hlook : parentLookup vals p = some q := by
      unfold parentOf at hq
      rw [hp] at hq
      exact hq
    simp only [depthTo, hp, hlook] at h
    cases hd : depthTo vals f q with
    | none => simp [hd] at h
    | some k2 =>
      simp [hd] at h
      exact ⟨k2, rfl, h.symm⟩

end OptCom

namespace OptCom

/-- Iterating ancestors commutes: one more step can be taken at the far
end of the chain. -/
theorem ancAt_succ_right (vals : List ProtocolNode) :
    ∀ (j : Nat) (x : ProtocolNode),
      ancAt vals (j+1) x = (ancAt vals j x).bind (parentOf vals) := by
  intro j
  induction j with
  | zero =>
    intro x
    show (match parentOf vals x with
      | none => none
      | some q => ancAt vals 0 q) = (some x).bind (parentOf vals)
    cases hq : parentOf vals x <;> simp [ancAt, hq]
  | succ j ih =>
    intro x
    show (match parentOf vals x with
      | none => none
      | some q => ancAt vals (j+1) q) = _
    cases hq : parentOf vals x with
    | none => simp [ancAt, hq]
    | some q =>
      simp only
      rw [ih q]
      have : ancAt vals (j+1+1) x = ancAt vals (j+1) q := by
        show (match parentOf vals x with
          | none => none
          | some q => ancAt vals (j+1) q) = _
        rw [hq]
      simp only [ancAt, hq]

/-- Any ancestor is the start node itself or a map value. -/
theorem ancAt_mem (vals : List ProtocolNode) :
    ∀ (j : Nat) (x c : ProtocolNode), ancAt vals j x = some c → c = x ∨ c ∈ vals := by
  intro j
  induction j with
  | zero => intro x c h; simp [ancAt] at h; exact Or.inl h.symm
  | succ j ih =>
    intro x c h
    rw [ancAt] at h
    cases hq : parentOf vals x with
    | none => rw [hq] at h; exact absurd h (by simp)
    | some q =>
      rw [hq] at h
      rcases ih q c h with rfl | hc
      · exact Or.inr (parentOf_mem vals x c hq)
      · exact Or.inr hc

/-- Extending a chain by the resolved parent at its far end. -/
theorem ancAt_extend (vals : List ProtocolNode) (j : Nat) (x c n : ProtocolNode)
    (h : ancAt vals j x = some c) (hp : parentOf vals c = some n) :
    ancAt vals (j+1) x = some n := by
  rw [ancAt_succ_right vals j x, h]
  exact hp

/-- Splitting the last step off a chain. -/
theorem ancAt_peel (vals : List ProtocolNode) (j : Nat) (x n : ProtocolNode)
    (h : ancAt vals (j+1) x = some n) :
    ∃ c, ancAt vals j x = some c ∧ parentOf vals c = some n := by
  rw [ancAt_succ_right vals j x] at h
  exact Option.bind_eq_some.mp h

/-- Chain lengths add along ancestors: if `y` is the `j`-th ancestor of
`x`, the parent chain of `x` is `j` longer than that of `y`. -/
theorem depth_of_ancAt (vals : List ProtocolNode) :
    ∀ (j : Nat) (x y : ProtocolNode) (dx dy : Nat),
      ancAt vals j x = some y →
      depthTo vals vals.length x = some dx →
      depthTo vals vals.length y = some dy →
      dx = dy + j := by
  intro j
  induction j with
  | zero =>
    intro x y dx dy h hx hy
    simp only [ancAt, Option.some.injEq] at h
    subst h
    rw [hx] at hy
    simp at hy
    omega
  | succ j ih =>
    intro x y dx dy h hx hy
    rw [ancAt] at h
    cases hq : parentOf vals x with
    | none => rw [hq] at h; exact absurd h (by simp)
    | some q =>
      rw [hq] at h
      cases hL : vals.length with
      | zero =>
        rw [hL] at hx
        cases hp : x.parent_id with
        | none =>
          unfold parentOf at hq
          rw [hp] at hq
          exact absurd hq (by simp)
        | some p => simp [depthTo, hp] at hx
      | succ L =>
        rw [hL] at hx
        obtain ⟨k2, hk2, hdx⟩ := depthTo_parent_step vals L x q dx hq hx
        have hk2L : depthTo vals vals.length q = some k2 :=
          depthTo_mono vals (by omega) q k2 hk2
        have := ih q y k2 dy h hk2L hy
        omega

/-- A child sits one step deeper than its parent. -/
theorem child_depth (vals : List ProtocolNode)
    (hids : (vals.map ProtocolNode.id).Nodup) (n c : ProtocolNode)
    (hn : n ∈ vals) (_hc : c ∈ vals) (hcp : c.parent_id = some n.id)
    (k m : Nat) (hkn : depthTo vals vals.length n = some k)
    (hmc : depthTo vals vals.length c = some m) : m = k + 1 := by
  have hq : parentOf vals c = some n := parentOf_of_child vals hids n c hn hcp
  cases hL : vals.length with
  | zero =>
    rw [hL] at hmc
    simp [depthTo, hcp] at hmc
  | succ L =>
    rw [hL] at hmc
    obtain ⟨k2, hk2, hm⟩ := depthTo_parent_step vals L c n m hq hmc
    have hk2L : depthTo vals vals.length n = some k2 :=
      depthTo_mono vals (by omega) n k2 hk2
    rw [hkn] at hk2L
    simp at hk2L
    omega

/-- A defined chain of length `k` ends at a no-parent node `k` ancestor
steps up. -/
theorem depthTo_anc (vals : List ProtocolNode) :
    ∀ (f : Nat) (x : ProtocolNode) (k : Nat), depthTo vals f x = some k →
      ∃ s, ancAt vals k x = some s ∧ s.parent_id = none := by
  intro f
  induction f with
  | zero =>
    intro x k h
    cases hp : x.parent_id with
    | none =>
      simp only [depthTo, hp, Option.some.injEq] at h
      exact ⟨x, by simp [← h, ancAt], hp⟩
    | some p => simp [depthTo, hp] at h
  | succ f ih =>
    intro x k h
    cases hp : x.parent_id with
    | none =>
      simp only [depthTo, hp, Option.some.injEq] at h
      exact ⟨x, by simp [← h, ancAt], hp⟩
    | some p =>
      simp only [depthTo, hp] at h
      cases hq : parentLookup vals p with
      | none => simp [hq] at h
      | some q =>
        simp only [hq] at h
        cases hd : depthTo vals f q with
        | none => simp [hd] at h
        | some k2 =>
          simp [hd] at h
          obtain ⟨s, hs, hsn⟩ := ih q k2 hd
          refine ⟨s, ?_, hsn⟩
          rw [← h]
          show (match parentOf vals x with
            | none => none
            | some q2 => ancAt vals k2 q2) = some s
          have hpq : parentOf vals x = some q := by
            unfold parentOf
            rw [hp]
            exact hq
          rw [hpq]
          exact hs

/-- With exactly one sentinel, every no-parent map value is the detected
root. -/
theorem root_unique (vals : List ProtocolNode)
    (hsent : (vals.filter (fun n => n.parent_id.isNone)).length = 1)
    (r : ProtocolNode) (hr : findRoot vals = some r) :
    ∀ s ∈ vals, s.parent_id = none → s = r := by
  obtain ⟨a, ha⟩ := List.length_eq_one.mp hsent
  have hrf := findRoot_spec vals r hr
  have hrmem : r ∈ vals.filter (fun n => n.parent_id.isNone) := by
    rw [List.mem_filter]
    exact ⟨hrf.1, by simp [hrf.2]⟩
  intro s hs hsp
  have hsmem : s ∈ vals.filter (fun n => n.parent_id.isNone) := by
    rw [List.mem_filter]
    exact ⟨hs, by simp [hsp]⟩
  rw [ha] at hrmem hsmem
  simp at hrmem hsmem
  rw [hrmem, hsmem]

/-- A kept accumulator stays through the root-detection fold. -/
theorem findRoot_aux_isSome :
    ∀ (vals : List ProtocolNode) (r : ProtocolNode),
      (vals.foldl (fun a n => if n.parent_id = none then some n else a) (some r)).isSome := by
  intro vals
  induction vals with
  | nil => intro r; rfl
  | cons x xs ih =>
    intro r
    rw [List.foldl_cons]
    by_cases hx : x.parent_id = none
    · rw [if_pos hx]; exact ih x
    · rw [if_neg hx]; exact ih r

/-- A sentinel member guarantees root detection succeeds. -/
theorem findRoot_isSome (vals : List ProtocolNode) (x : ProtocolNode)
    (hx : x ∈ vals) (hpx : x.parent_id = none) : (findRoot vals).isSome := by
  unfold findRoot
  induction vals with
  | nil => simp at hx
  | cons y ys ih =>
    rw [List.foldl_cons]
    rcases List.mem_cons.mp hx with rfl | hmem
    · rw [if_pos hpx]
      exact findRoot_aux_isSome ys x
    · by_cases hy : y.parent_id = none
      · rw [if_pos hy]
        exact findRoot_aux_isSome ys y
      · rw [if_neg hy]
        exact ih hmem

/-- Completeness of the depth-first traversal: a map value linked to the
start node by a parent chain shorter than the fuel is visited. -/
theorem traverseAll_complete (vals : List ProtocolNode) (x : ProtocolNode)
    (hx : x ∈ vals) :
    ∀ (j fuel : Nat) (n : ProtocolNode), n ∈ vals → ancAt vals j x = some n →
      j < fuel → x ∈ traverseAll vals fuel n := by
  intro j
  induction j with
  | zero =>
    intro fuel n _ h hf
    simp only [ancAt, Option.some.injEq] at h
    subst h
    cases fuel with
    | zero => omega
    | succ fuel => simp [traverseAll]
  | succ j ih =>
    intro fuel n hn h hf
    obtain ⟨c, hcanc, hcp⟩ := ancAt_peel vals j x n h
    have hcv : c ∈ vals := by
      rcases ancAt_mem vals j x c hcanc with rfl | hm
      · exact hx
      · exact hm
    have hchild : c ∈ childrenOf vals n :=
      (mem_childrenOf vals n c).mpr ⟨hcv, child_of_parentOf vals n c hcp⟩
    cases fuel with
    | zero => omega
    | succ fuel =>
      have hin : x ∈ traverseAll vals fuel c := ih fuel c hcv hcanc (by omega)
      simp only [traverseAll, List.mem_cons, List.mem_flatten, List.mem_map]
      exact Or.inr ⟨traverseAll vals fuel c, ⟨c, hchild, rfl⟩, hin⟩

end OptCom

namespace OptCom

/-- Under distinct ids and terminating parent chains the traversal visits
no node twice, and every visited node has the start node as an ancestor. -/
theorem traverseAll_nodup_anc (vals : List ProtocolNode)
    (hids : (vals.map ProtocolNode.id).Nodup)
    (hacyc : ∀ n ∈ vals, (depthTo vals vals.length n).isSome) :
    ∀ (fuel : Nat) (n : ProtocolNode), n ∈ vals →
      (traverseAll vals fuel n).Nodup
      ∧ ∀ x ∈ traverseAll vals fuel n, ∃ j, ancAt vals j x = some n := by
  intro fuel
  induction fuel with
  | zero => intro n _; exact ⟨List.nodup_nil, by simp [traverseAll]⟩
  | succ fuel ih =>
    intro n hn
    obtain ⟨dn, hdn⟩ := Option.isSome_iff_exists.mp (hacyc n hn)
    constructor
    · rw [traverseAll]
      refine List.nodup_cons.mpr ⟨?_, ?_⟩
      · intro hmem
        simp only [List.mem_flatten, List.mem_map] at hmem
        obtain ⟨l, ⟨c, hc, rfl⟩, hnl⟩ := hmem
        have hcv := (mem_childrenOf vals n c).mp hc
        obtain ⟨j, hj⟩ := (ih c hcv.1).2 n hnl
        obtain ⟨dc, hdc⟩ := Option.isSome_iff_exists.mp (hacyc c hcv.1)
        have h1 : dn = dc + j := depth_of_ancAt vals j n c dn dc hj hdn hdc
        have h2 : dc = dn + 1 := child_depth vals hids n c hn hcv.1 hcv.2 dn dc hdn hdc
        omega
      · rw [List.nodup_flatten]
        constructor
        · intro l hl
          simp only [List.mem_map] at hl
          obtain ⟨c, hc, rfl⟩ := hl
          exact (ih c ((mem_childrenOf vals n c).mp hc).1).1
        · rw [List.pairwise_map]
          have hcsnodup : (childrenOf vals n).Nodup :=
            (List.Nodup.of_map ProtocolNode.id hids).filter _
          have hne : (childrenOf vals n).Pairwise (fun a b => a ≠ b) := hcsnodup
          refine List.Pairwise.imp_of_mem ?_ hne
          intro c c2 hcm hcm2 hcc x hx hx2
          have hcv := (mem_childrenOf vals n c).mp hcm
          have hcv2 := (mem_childrenOf vals n c2).mp hcm2
          obtain ⟨j, hj⟩ := (ih c hcv.1).2 x hx
          obtain ⟨j2, hj2⟩ := (ih c2 hcv2.1).2 x hx2
          have hxv : x ∈ vals := by
            rcases traverseAll_mem_cases vals fuel c x hcv.1 hx with rfl | h
            · exact hcv.1
            · exact h.1
          obtain ⟨dx, hdx⟩ := Option.isSome_iff_exists.mp (hacyc x hxv)
          obtain ⟨dc, hdc⟩ := Option.isSome_iff_exists.mp (hacyc c hcv.1)
          obtain ⟨dc2, hdc2⟩ := Option.isSome_iff_exists.mp (hacyc c2 hcv2.1)
          have e1 : dx = dc + j := depth_of_ancAt vals j x c dx dc hj hdx hdc
          have e2 : dx = dc2 + j2 := depth_of_ancAt vals j2 x c2 dx dc2 hj2 hdx hdc2
          have e3 : dc = dn + 1 := child_depth vals hids n c hn hcv.1 hcv.2 dn dc hdn hdc
          have e4 : dc2 = dn + 1 :=
            child_depth vals hids n c2 hn hcv2.1 hcv2.2 dn dc2 hdn hdc2
          have hjj : j = j2 := by omega
          subst hjj
          rw [hj] at hj2
          simp at hj2
          exact hcc hj2
    · intro x hx
      rw [traverseAll] at hx
      rcases List.mem_cons.mp hx with rfl | hmem
      · exact ⟨0, by simp [ancAt]⟩
      · simp only [List.mem_flatten, List.mem_map] at hmem
        obtain ⟨l, ⟨c, hc, rfl⟩, hxl⟩ := hmem
        have hcv := (mem_childrenOf vals n c).mp hc
        obtain ⟨j, hj⟩ := (ih c hcv.1).2 x hxl
        exact ⟨j+1, ancAt_extend vals j x c n hj
          (parentOf_of_child vals hids n c hn hcv.2)⟩

/-- With distinct ids, one sentinel and terminating parent chains, the
traversal from the detected root visits exactly the map values. -/
theorem traverseAll_perm (vals : List ProtocolNode)
    (hids : (vals.map ProtocolNode.id).Nodup)
    (hsent : (vals.filter (fun n => n.parent_id.isNone)).length = 1)
    (hacyc : ∀ n ∈ vals, (depthTo vals vals.length n).isSome)
    (root : ProtocolNode) (hr : findRoot vals = some root) :
    List.Perm (traverseAll vals (vals.length + 1) root) vals := by
  have hrootv := findRoot_spec vals root hr
  have hnodup_vals : vals.Nodup := List.Nodup.of_map ProtocolNode.id hids
  have hsub1 : traverseAll vals (vals.length+1) root ⊆ vals := by
    intro x hx
    rcases traverseAll_mem_cases vals _ root x hrootv.1 hx with rfl | h
    · exact hrootv.1
    · exact h.1
  have hnd := (traverseAll_nodup_anc vals hids hacyc (vals.length+1) root hrootv.1).1
  have hsub2 : vals ⊆ traverseAll vals (vals.length+1) root := by
    intro x hx
    obtain ⟨k, hk⟩ := Option.isSome_iff_exists.mp (hacyc x hx)
    obtain ⟨s, hs, hsn⟩ := depthTo_anc vals vals.length x k hk
    have hsv : s ∈ vals := by
      rcases ancAt_mem vals k x s hs with rfl | h
      · exact hx
      · exact h
    have hsr : s = root := root_unique vals hsent root hr s hsv hsn
    subst hsr
    exact traverseAll_complete vals x hx k (vals.length+1) s hsv hs
      (by have := depthTo_le vals vals.length x k hk; omega)
  exact (hnd.subperm hsub1).antisymm (hnodup_vals.subperm hsub2)

/-- With enough fuel the edge targets are exactly the traversal minus its
start: every visited node other than the start receives one edge. -/
theorem traverseEdges_toNode (vals : List ProtocolNode) (mem : String → Bool)
    (hids : (vals.map ProtocolNode.id).Nodup)
    (hacyc : ∀ n ∈ vals, (depthTo vals vals.length n).isSome) :
    ∀ (fuel : Nat) (n : ProtocolNode) (k : Nat), n ∈ vals →
      depthTo vals vals.length n = some k → vals.length + 1 ≤ fuel + k →
      n :: (traverseEdges vals mem fuel n).map (fun e => e.toNode)
        = traverseAll vals fuel n := by
  intro fuel
  induction fuel with
  | zero =>
    intro n k _ hk hf
    have := depthTo_le vals vals.length n k hk
    omega
  | succ fuel ih =>
    intro n k hn hk hf
    rw [traverseEdges, traverseAll]
    congr 1
    rw [List.map_flatten, List.map_map]
    congr 1
    apply List.map_congr_left
    intro c hc
    have hcv := (mem_childrenOf vals n c).mp hc
    obtain ⟨m, hm⟩ := Option.isSome_iff_exists.mp (hacyc c hcv.1)
    have hm1 : m = k + 1 := child_depth vals hids n c hn hcv.1 hcv.2 k m hk hm
    have hrec := ih c m hcv.1 hm (by omega)
    simp only [Function.comp_apply, List.map_cons]
    exact hrec

end OptCom

namespace OptCom

/-- No list member carries the id of an absent node. -/
theorem countP_id_eq_zero (T : List ProtocolNode) (x : ProtocolNode)
    (hinj : ∀ t ∈ T, t.id = x.id → t = x) (hx : x ∉ T) :
    T.countP (fun t => decide (t.id = x.id)) = 0 := by
  rw [List.countP_eq_zero]
  intro t ht
  simp only [decide_eq_true_eq]
  intro he
  exact hx (hinj t ht he ▸ ht)

/-- A predicate holding for exactly one member of a duplicate-free list is
counted once. -/
theorem countP_eq_one_of_unique (p : ProtocolNode → Bool) (x : ProtocolNode) :
    ∀ T : List ProtocolNode, T.Nodup → x ∈ T →
      (∀ t ∈ T, p t = true ↔ t = x) → T.countP p = 1 := by
  intro T
  induction T with
  | nil => intro _ hx; simp at hx
  | cons t T ih =>
    intro hT hx hiff
    rcases List.mem_cons.mp hx with rfl | hxT
    · rw [List.countP_cons_of_pos _ _ ((hiff x (List.mem_cons_self x T)).mpr rfl)]
      have h0 : T.countP p = 0 := by
        rw [List.countP_eq_zero]
        intro t2 ht2 hp2
        have ht2x : t2 = x := (hiff t2 (List.mem_cons_of_mem x ht2)).mp hp2
        exact (List.nodup_cons.mp hT).1 (ht2x ▸ ht2)
      rw [h0]
    · have hne : t ≠ x := by
        intro h
        exact (List.nodup_cons.mp hT).1 (h ▸ hxT)
      rw [List.countP_cons_of_neg]
      · exact ih (List.nodup_cons.mp hT).2 hxT
          (fun t2 ht2 => hiff t2 (List.mem_cons_of_mem t ht2))
      · intro hp
        exact hne ((hiff t (List.mem_cons_self t T)).mp hp)

/-- C1 (amended): when ids are distinct, exactly one node carries the
no-parent sentinel, every other `parent_id` resolves within the set, and —
the amendment the parent cycle counterexample forces — every node's parent
chain terminates, the engine emits exactly `node count - 1` edges, exactly
one node receives no incoming edge, and that node is the sentinel root. -/
theorem edge_count_and_unique_root (nodes : List ProtocolNode) (bp : List String)
    (hids : (nodes.map ProtocolNode.id).Nodup)
    (hsent : (nodes.filter (fun n => n.parent_id.isNone)).length = 1)
    (_hres : ∀ n ∈ nodes, ∀ p : String, n.parent_id = some p →
      p ∈ nodes.map ProtocolNode.id)
    (hacyc : ∀ n ∈ nodes, (depthTo nodes nodes.length n).isSome) :
    (layoutEngine nodes bp).edges.length = nodes.length - 1
    ∧ nodes.countP (fun x => decide ((layoutEngine nodes bp).edges.countP
        (fun e => decide (e.toNode.id = x.id)) = 0)) = 1
    ∧ ∀ x ∈ nodes, (layoutEngine nodes bp).edges.countP
        (fun e => decide (e.toNode.id = x.id)) = 0 → x.parent_id = none := by
  have hv : valsOf nodes = nodes := valsOf_eq_self nodes hids
  obtain ⟨a, ha⟩ := List.length_eq_one.mp hsent
  have hamem : a ∈ nodes ∧ a.parent_id = none := by
    have h1 : a ∈ nodes.filter (fun n => n.parent_id.isNone) := by rw [ha]; simp
    rw [List.mem_filter] at h1
    exact ⟨h1.1, by simpa using h1.2⟩
  have hne : nodes ≠ [] := by
    intro h
    rw [h] at hamem
    simp at hamem
  obtain ⟨root, hr⟩ := Option.isSome_iff_exists.mp
    (findRoot_isSome nodes a hamem.1 hamem.2)
  have hrootv := findRoot_spec nodes root hr
  have hedges : (layoutEngine nodes bp).edges
      = traverseEdges nodes (fun s => bp.contains s) (nodes.length + 1) root := by
    simp only [layoutEngine, layoutEngineCore, hv, if_neg hne, hr]
  have hd0 : depthTo nodes nodes.length root = some 0 :=
    depthTo_of_none nodes nodes.length root hrootv.2
  have htn := traverseEdges_toNode nodes (fun s => bp.contains s) hids hacyc
    (nodes.length+1) root 0 hrootv.1 hd0 (by omega)
  have hperm := traverseAll_perm nodes hids hsent hacyc root hr
  have hnd := (traverseAll_nodup_anc nodes hids hacyc (nodes.length+1) root hrootv.1).1
  rw [← htn] at hperm hnd
  have hlenE : (layoutEngine nodes bp).edges.length = nodes.length - 1 := by
    rw [hedges]
    have hL := hperm.length_eq
    simp only [List.length_cons, List.length_map] at hL
    omega
  have hTsub : (traverseEdges nodes (fun s => bp.contains s) (nodes.length+1) root).map
      (fun e => e.toNode) ⊆ nodes :=
    fun t ht => hperm.subset (List.mem_cons_of_mem root ht)
  have hrootT : root ∉ (traverseEdges nodes (fun s => bp.contains s)
      (nodes.length+1) root).map (fun e => e.toNode) := (List.nodup_cons.mp hnd).1
  have hTnd : ((traverseEdges nodes (fun s => bp.contains s)
      (nodes.length+1) root).map (fun e => e.toNode)).Nodup := (List.nodup_cons.mp hnd).2
  have hinc : ∀ x ∈ nodes, (layoutEngine nodes bp).edges.countP
      (fun e => decide (e.toNode.id = x.id)) = (if x = root then 0 else 1) := by
    intro x hx
    rw [hedges]
    have hcp : (traverseEdges nodes (fun s => bp.contains s)
          (nodes.length+1) root).countP (fun e => decide (e.toNode.id = x.id))
        = ((traverseEdges nodes (fun s => bp.contains s)
            (nodes.length+1) root).map (fun e => e.toNode)).countP
            (fun t => decide (t.id = x.id)) :=
      (List.countP_map (fun (t : ProtocolNode) => decide (t.id = x.id))
        (fun (e : LEdge) => e.toNode) _).symm
    rw [hcp]
    by_cases hxr : x = root
    · subst hxr
      rw [if_pos rfl]
      exact countP_id_eq_zero _ x
        (fun t ht he => List.inj_on_of_nodup_map hids (hTsub ht) hx he) hrootT
    · rw [if_neg hxr]
      have hxT : x ∈ (traverseEdges nodes (fun s => bp.contains s)
          (nodes.length+1) root).map (fun e => e.toNode) := by
        have h2 : x ∈ root :: _ := hperm.mem_iff.mpr hx
        rcases List.mem_cons.mp h2 with rfl | h3
        · exact absurd rfl hxr
        · exact h3
      refine countP_eq_one_of_unique _ x _ hTnd hxT ?_
      intro t ht
      simp only [decide_eq_true_eq]
      constructor
      · intro he
        exact List.inj_on_of_nodup_map hids (hTsub ht) hx he
      · intro he
        rw [he]
  refine ⟨hlenE, ?_, ?_⟩
  · refine countP_eq_one_of_unique _ root nodes
      (List.Nodup.of_map ProtocolNode.id hids) hrootv.1 ?_
    intro t ht
    simp only [decide_eq_true_eq]
    rw [hinc t ht]
    by_cases htr : t = root
    · simp [htr]
    · simp [htr]
  · intro x hx h0
    rw [hinc x hx] at h0
    by_cases hxr : x = root
    · rw [hxr]
      exact hrootv.2
    · rw [if_neg hxr] at h0
      omega

/-- Witness for the amended C1 at the §8 scenario input: two nodes give one
edge, and exactly one node (the base `exN0`, whose parent is the sentinel)
has no incoming edge. -/
theorem edge_count_and_unique_root_witness :
    (layoutEngine [exN0, exN1] ["n0", "n1"]).edges.length = [exN0, exN1].length - 1
    ∧ [exN0, exN1].countP (fun x => decide ((layoutEngine [exN0, exN1]
        ["n0", "n1"]).edges.countP (fun e => decide (e.toNode.id = x.id)) = 0)) = 1
    ∧ exN0.parent_id = none := by
  have h := edge_count_and_unique_root [exN0, exN1] ["n0", "n1"]
    (by decide) (by decide) (by decide) (by decide)
  exact ⟨h.1, h.2.1, h.2.2 exN0 (by decide) (by decide)⟩

end OptCom
